import Mathlib

/-!
Verification development for the rqlink client (src/unnamed/part_000).

The JavaScript source is shallowly embedded: pure helpers become Lean
functions, the stateful parameter bag of the where-clause compiler becomes
explicit state passing, JS objects and Maps become insertion-ordered
association lists, thrown errors become `Except.error`, and the network is
an explicit oracle argument.  Machine numbers in the source are plain
JS numbers used as counters and sizes, embedded as `Nat`/`Int`.
-/

namespace Rqlink

/-! ### Decimal rendering of naturals

JS template interpolation of a number (`p_${idx}`) renders the decimal
digits.  `natToStr` is that decimal rendering, written with a structural
fuel argument so that it evaluates by kernel reduction; `natToStr_inj`
shows two distinct counters never render to the same string. -/

def digitCh : Nat → Char
  | 0 => '0' | 1 => '1' | 2 => '2' | 3 => '3' | 4 => '4'
  | 5 => '5' | 6 => '6' | 7 => '7' | 8 => '8' | _ => '9'

def natDigitsAux : Nat → Nat → List Char
  | 0, _ => []
  | fuel + 1, n =>
    if n < 10 then [digitCh n]
    else natDigitsAux fuel (n / 10) ++ [digitCh (n % 10)]

def natToStr (n : Nat) : String := ⟨natDigitsAux (n + 1) n⟩

/-! ### Generic JS-semantics helpers -/

/-- Equality on `Except` values is decidable componentwise; needed so that
witnesses can be checked by `decide`. -/
instance {e a : Type} [DecidableEq e] [DecidableEq a] : DecidableEq (Except e a) := fun x y =>
  match x, y with
  | .ok u, .ok v => if h : u = v then .isTrue (by rw [h]) else .isFalse (by simp [h])
  | .error u, .error v => if h : u = v then .isTrue (by rw [h]) else .isFalse (by simp [h])
  | .ok _, .error _ => .isFalse (by simp)
  | .error _, .ok _ => .isFalse (by simp)

/-- JS `Array.prototype.join(sep)`. -/
def joinSep (sep : String) : List String → String
  | [] => ""
  | [x] => x
  | x :: xs => x ++ sep ++ joinSep sep xs

/-- JS object property assignment `obj[k] = v` on an insertion-ordered
association list: an existing key keeps its position and gets the new
value, a fresh key is appended at the end.  JS `Map.prototype.set` has the
same semantics, so the schema cache uses this too. -/
def objInsert {α : Type} (ps : List (String × α)) (k : String) (v : α) : List (String × α) :=
  if ps.any (fun kv => kv.1 == k) then ps.map (fun kv => if kv.1 == k then (k, v) else kv)
  else ps ++ [(k, v)]

/-- JS `Map.prototype.get` (also object property read). -/
def mapGet {α : Type} (m : List (String × α)) (key : String) : Option α :=
  match m.find? (fun kv => kv.1 == key) with
  | some kv => some kv.2
  | none => none

/-- JS `Map.prototype.delete`. -/
def mapDelete {α : Type} (m : List (String × α)) (key : String) : List (String × α) :=
  m.filter (fun kv => !(kv.1 == key))

/-- JS `String.prototype.startsWith`. -/
def strStartsWith (s pre : String) : Bool := pre.data.isPrefixOf s.data

/-- Substring containment, JS `String.prototype.includes` on char lists. -/
def hasSub : List Char → List Char → Bool
  | hay, needle =>
    match hay with
    | [] => needle.isEmpty
    | _ :: t => needle.isPrefixOf hay || hasSub t needle

/-- ASCII uppercase of a string; models JS `toUpperCase` on the ASCII
identifiers and SQL keywords this client manipulates. -/
def toUpperStr (s : String) : String := ⟨s.data.map Char.toUpper⟩

/-! ### Values crossing the JS boundary -/

/-- A primitive JS value as it appears in filter objects and parameter
bags. -/
inductive Value where
  | vInt (n : Int)
  | vStr (s : String)
  | vBool (b : Bool)
  | vNull
deriving DecidableEq

/-- An operator argument / bound parameter: a primitive or an array (the
`in` operator receives arrays). -/
inductive JSArg where
  | prim (v : Value)
  | arr (vs : List Value)
deriving DecidableEq

/-- JS decimal rendering of an `Int` (template interpolation). -/
def intToStr (i : Int) : String :=
  if i < 0 then "-" ++ natToStr i.natAbs else natToStr i.toNat

/-- JS string coercion of a primitive value (template interpolation). -/
def jsValToString : Value → String
  | .vInt n => intToStr n
  | .vStr s => s
  | .vBool b => if b then "true" else "false"
  | .vNull => "null"

/-- JS string coercion of an operator argument (arrays join with `,`). -/
def jsArgToString : JSArg → String
  | .prim v => jsValToString v
  | .arr vs => joinSep "," (vs.map jsValToString)

/-! ### Identifier quoting and the math-expression safety gate
(source: `quote`, `MATH_SAFE_REGEX`, `MATH_BLOCKED_PATTERNS`,
`validateMathExpression`) -/

/-- Source `quote`: wrap an identifier in double quotes. -/
def quote (name : String) : String := "\"" ++ name ++ "\""

/-- The whitespace class of the source regex `\s`, restricted to its ASCII
members (the expressions this gate sees are ASCII SQL arithmetic). -/
def jsWsChar (c : Char) : Bool :=
  c == ' ' || c == '\t' || c == '\n' || c == '\r' || c == '\x0b' || c == '\x0c'

/-- Character whitelist of source `MATH_SAFE_REGEX`:
`^[a-zA-Z0-9_"()+\-*/\s:.]+$`. -/
def mathSafeChar (c : Char) : Bool :=
  c.isAlpha || c.isDigit || c == '_' || c == '"' || c == '(' || c == ')' ||
  c == '+' || c == '-' || c == '*' || c == '/' || jsWsChar c || c == ':' || c == '.'

/-- Source `MATH_BLOCKED_PATTERNS`: SQL tokens rejected inside math
expressions (checked against the uppercased expression). -/
def MATH_BLOCKED_PATTERNS : List String :=
  [";", "--", "/*", "*/", "UNION", "SELECT", "INSERT", "DELETE", "DROP",
   "UPDATE", "CREATE", "ALTER", "EXEC", "EXECUTE"]

/-- Source `validateMathExpression`: the two-stage safety gate.  The
regex `test` requires at least one character, so the empty string fails
the whitelist stage. -/
def validateMathExpression (expr : String) : Bool :=
  if !(!expr.data.isEmpty && expr.data.all mathSafeChar) then false
  else
    if MATH_BLOCKED_PATTERNS.any (fun p => hasSub (toUpperStr expr).data p.data) then false
    else true

/-! ### The where-clause compiler (source: `buildWhere`)

A where object is a list of entries in JS key order.  `OR` holds a list of
sub-objects, `NOT` one sub-object, any other key is a field condition: the
JS value `null`, a non-object scalar, or an operator map.  The shared
mutable `params` object and `idx` counter of the source become the state
`BW` threaded through the recursion. -/

inductive FieldCond where
  | isNullC
  | scalar (v : Value)
  | opMap (ops : List (String × JSArg))

inductive WhereEntry where
  | orE (branches : List (List WhereEntry))
  | notE (sub : List WhereEntry)
  | fieldE (name : String) (cond : FieldCond)

abbrev WhereObj := List WhereEntry

/-- The compilation state: the `idx` counter and the `params` object. -/
structure BW where
  idx : Nat
  params : List (String × JSArg)
deriving DecidableEq

/-- Parameter name generated at counter value `i`: source `p_${idx}`. -/
def keyFn (i : Nat) : String := "p_" ++ natToStr i

/-- Source `addParam`: bind a value under the next generated name and
return its placeholder. -/
def addParam (st : BW) (v : JSArg) : String × BW :=
  let key := keyFn st.idx
  (":" ++ key, ⟨st.idx + 1, objInsert st.params key v⟩)

/-- Source `opV.map(v => addParam(v))` in the `in` branch. -/
def addParams : BW → List Value → (List String × BW)
  | st, [] => ([], st)
  | st, v :: vs =>
    let (ph, st') := addParam st (.prim v)
    let (phs, st'') := addParams st' vs
    (ph :: phs, st'')

/-- One arm of the source `switch (op)` inside `buildWhere`. -/
def applyOp (qk : String) (op : String) (a : JSArg) (st : BW) :
    Except String (String × BW) :=
  match op with
  | "equals" => let (ph, st') := addParam st a; .ok (qk ++ " = " ++ ph, st')
  | "not" => let (ph, st') := addParam st a; .ok (qk ++ " != " ++ ph, st')
  | "gt" => let (ph, st') := addParam st a; .ok (qk ++ " > " ++ ph, st')
  | "gte" => let (ph, st') := addParam st a; .ok (qk ++ " >= " ++ ph, st')
  | "lt" => let (ph, st') := addParam st a; .ok (qk ++ " < " ++ ph, st')
  | "lte" => let (ph, st') := addParam st a; .ok (qk ++ " <= " ++ ph, st')
  | "contains" =>
    let (ph, st') := addParam st (.prim (.vStr ("%" ++ jsArgToString a ++ "%")))
    .ok (qk ++ " LIKE " ++ ph, st')
  | "startsWith" =>
    let (ph, st') := addParam st (.prim (.vStr (jsArgToString a ++ "%")))
    .ok (qk ++ " LIKE " ++ ph, st')
  | "endsWith" =>
    let (ph, st') := addParam st (.prim (.vStr ("%" ++ jsArgToString a)))
    .ok (qk ++ " LIKE " ++ ph, st')
  | "in" =>
    match a with
    | .arr vs =>
      if vs.isEmpty then .ok ("1=0", st)
      else
        let (phs, st') := addParams st vs
        .ok (qk ++ " IN (" ++ joinSep ", " phs ++ ")", st')
    | .prim _ => .error "TypeError: opV.map is not a function"
  | _ => .error ("Unknown operator: " ++ op)

/-- The `for (const [op, opV] of Object.entries(val))` loop: each operator
contributes one part. -/
def processOps (qk : String) : List (String × JSArg) → BW → Except String (List String × BW)
  | [], st => .ok ([], st)
  | (op, a) :: rest, st =>
    match applyOp qk op a st with
    | .error e => .error e
    | .ok (part, st') =>
      match processOps qk rest st' with
      | .error e => .error e
      | .ok (parts, st'') => .ok (part :: parts, st'')

mutual
/-- Source `process`: walk the entries of one where object collecting the
parts that are joined with `AND`. -/
def processParts (fields : List String) : List WhereEntry → BW → Except String (List String × BW)
  | [], st => .ok ([], st)
  | e :: rest, st =>
    match processEntry fields e st with
    | .error e => .error e
    | .ok (ps, st') =>
      match processParts fields rest st' with
      | .error e => .error e
      | .ok (qs, st'') => .ok (ps ++ qs, st'')
  termination_by structural es => es

/-- One `[key, val]` iteration of source `process`. -/
def processEntry (fields : List String) : WhereEntry → BW → Except String (List String × BW)
  | .orE bs, st =>
    match processBranches fields bs st with
    | .error e => .error e
    | .ok (cls, st') => .ok (["(" ++ joinSep " OR " cls ++ ")"], st')
  | .notE sub, st =>
    match processParts fields sub st with
    | .error e => .error e
    | .ok (ps, st') => .ok (["NOT (" ++ joinSep " AND " ps ++ ")"], st')
  | .fieldE name cond, st =>
    if fields.contains name then
      match cond with
      | .isNullC => .ok ([quote name ++ " IS NULL"], st)
      | .scalar v =>
        let (ph, st') := addParam st (.prim v)
        .ok ([quote name ++ " = " ++ ph], st')
      | .opMap ops => processOps (quote name) ops st
    else .error ("Field \"" ++ name ++ "\" not found in schema")
  termination_by structural e => e

/-- Source `val.map(v => process(v))` in the `OR` branch (each branch is a
fully joined sub-clause). -/
def processBranches (fields : List String) : List (List WhereEntry) → BW → Except String (List String × BW)
  | [], st => .ok ([], st)
  | b :: bs, st =>
    match processParts fields b st with
    | .error e => .error e
    | .ok (ps, st') =>
      match processBranches fields bs st' with
      | .error e => .error e
      | .ok (cls, st'') => .ok ((joinSep " AND " ps) :: cls, st'')
  termination_by structural bs => bs
end

/-- Source `buildWhere`: empty or absent filters compile to `1=1` with no
parameters, otherwise the recursive walk starts from a fresh counter and
an empty parameter object. -/
def buildWhere (w : Option WhereObj) (fields : List String) :
    Except String (String × List (String × JSArg)) :=
  match w with
  | none => .ok ("1=1", [])
  | some entries =>
    if entries.isEmpty then .ok ("1=1", [])
    else
      match processParts fields entries ⟨0, []⟩ with
      | .error e => .error e
      | .ok (parts, st) => .ok (joinSep " AND " parts, st.params)

/-- The generated parameter names of a compilation result (empty on a
compile error). -/
def paramNamesOf (r : Except String (String × List (String × JSArg))) : List String :=
  match r with
  | .ok sp => sp.2.map Prod.fst
  | .error _ => []

/-! ### The select-clause builder (source: `buildSelect`) -/

/-- Source `buildSelect`: keys of the select object in order with their JS
truthiness; unknown or falsy keys are dropped, and if nothing remains the
builder falls back to `*`. -/
def buildSelect (select : Option (List (String × Bool))) (fields : List String) : String :=
  match select with
  | none => "*"
  | some sel =>
    if sel.isEmpty then "*"
    else
      let cols := (sel.filter (fun kv => kv.2 && fields.contains kv.1)).map (fun kv => quote kv.1)
      if cols.isEmpty then "*" else joinSep ", " cols

/-! ### Update set-clause building (source: the `update` method body) -/

/-- Word character of the regex `\b` boundary: `[A-Za-z0-9_]`. -/
def isWordChar (c : Char) : Bool := c.isAlphanum || c == '_'

/-- Whether a word boundary holds right after a match of `:` followed by
`ak`, given the text `t` that followed the `:`. -/
def boundaryAfter (ak t : List Char) : Bool :=
  let lastC := ak.getLastD ':'
  match t.drop ak.length with
  | [] => isWordChar lastC
  | c :: _ => isWordChar lastC != isWordChar c

/-- Source `expr.replace(new RegExp(`:ak\b`, g), `:pName`)`: a left-to-right
scan replacing every non-overlapping occurrence; the fuel is the scanned
length, consumed at least one character per step. -/
def replaceRefAux : Nat → List Char → List Char → List Char → List Char
  | 0, cs, _, _ => cs
  | fuel + 1, cs, ak, pName =>
    match cs with
    | [] => []
    | c :: t =>
      if c == ':' && ak.isPrefixOf t && boundaryAfter ak t then
        ':' :: pName ++ replaceRefAux fuel (t.drop ak.length) ak pName
      else c :: replaceRefAux fuel t ak pName

/-- Rewrite every `:ak` reference (at a word boundary) to `:pName`. -/
def replaceRef (expr ak pName : String) : String :=
  ⟨replaceRefAux expr.data.length expr.data ak.data pName.data⟩

/-- The assignment value for one column of an update `data` object.  A JS
object with an `increment` key is `increment` (that branch wins even if
`math` is also present); an object with a `math` key is `math`; any other
object contributes no set clause (`otherObj`); everything else (including
`null`, which is falsy) is a plain scalar assignment. -/
inductive UpdateVal where
  | scalar (v : Value)
  | increment (v : Value)
  | math (expr : String) (args : Option (List (String × Value)))
  | otherObj
deriving DecidableEq

/-- The `for (const [ak, av] of Object.entries(val.args))` rewrite loop:
each argument key is rewritten to a fresh `m_<col>_<mIdx>` name and bound. -/
def substArgs (c : String) : List (String × Value) → String → List (String × JSArg) → Nat →
    (String × List (String × JSArg) × Nat)
  | [], expr, params, mIdx => (expr, params, mIdx)
  | (ak, av) :: rest, expr, params, mIdx =>
    let pName := "m_" ++ c ++ "_" ++ natToStr mIdx
    substArgs c rest (replaceRef expr ak pName) (objInsert params pName (.prim av)) (mIdx + 1)

/-- The `for (const [c, val] of Object.entries(data))` loop of `update`:
builds the `SET` fragments while binding parameters; an unsafe math
expression aborts with the source error message, before any argument
rewriting for that column. -/
def updGo : List (String × UpdateVal) → List (String × JSArg) → Nat →
    Except String (List String × List (String × JSArg))
  | [], params, _ => .ok ([], params)
  | (c, v) :: rest, params, mIdx =>
    match v with
    | .scalar val =>
      match updGo rest (objInsert params ("d_" ++ c) (.prim val)) mIdx with
      | .error e => .error e
      | .ok (sets, ps) => .ok ((quote c ++ " = :d_" ++ c) :: sets, ps)
    | .increment n =>
      match updGo rest (objInsert params ("d_" ++ c) (.prim n)) mIdx with
      | .error e => .error e
      | .ok (sets, ps) => .ok ((quote c ++ " = " ++ quote c ++ " + :d_" ++ c) :: sets, ps)
    | .math expr args =>
      if validateMathExpression expr then
        let r := substArgs c (args.getD []) expr params mIdx
        match updGo rest r.2.1 r.2.2 with
        | .error e => .error e
        | .ok (sets, ps) => .ok ((quote c ++ " = " ++ r.1) :: sets, ps)
      else .error "Unsafe math expression detected. Operation blocked."
    | .otherObj => updGo rest params mIdx

/-- The set-clause builder of `update`, starting from the parameters the
where-compiler produced and a fresh `mIdx` counter. -/
def buildUpdateSets (data : List (String × UpdateVal)) (params0 : List (String × JSArg)) :
    Except String (List String × List (String × JSArg)) :=
  updGo data params0 0

/-- The SQL text and parameter bag `update` hands to `executeSQL`; an
error anywhere means no statement and no parameters are produced. -/
def updateStatement (fields : List String) (tableName : String) (whereQ : Option WhereObj)
    (data : List (String × UpdateVal)) : Except String (String × List (String × JSArg)) :=
  match buildWhere whereQ fields with
  | .error e => .error e
  | .ok (clause, params) =>
    match buildUpdateSets data params with
    | .error e => .error e
    | .ok (sets, params') =>
      .ok ("UPDATE " ++ quote tableName ++ " SET " ++ joinSep ", " sets ++ " WHERE " ++ clause ++
        " RETURNING *;", params')

/-! ### Schema cache (source: `schemaCache`, `getCachedSchema`,
`setCachedSchema`, `invalidateCache`) -/

/-- A cache slot: the stored schema data plus its insertion timestamp. -/
structure CacheEntry (α : Type) where
  data : α
  timestamp : Nat
deriving DecidableEq

/-- The insertion-ordered cache `Map`. -/
abbrev SchemaCache (α : Type) := List (String × CacheEntry α)

def CACHE_TTL : Nat := 5 * 60 * 1000

def MAX_CACHE_SIZE : Nat := 100

/-- Source `getCachedSchema`: a missing entry, or one whose age exceeds
the TTL, is a miss; the expired entry is deleted on the read that finds
it.  Returns the read result together with the cache after the read. -/
def getCachedSchema {α : Type} (cache : SchemaCache α) (key : String) (now : Nat) :
    Option α × SchemaCache α :=
  match mapGet cache key with
  | none => (none, cache)
  | some entry =>
    if CACHE_TTL < now - entry.timestamp then (none, mapDelete cache key)
    else (some entry.data, cache)

/-- Source `setCachedSchema`: whenever the cache holds at least
`MAX_CACHE_SIZE` entries the first key in insertion order is deleted, and
then the new entry is written. -/
def setCachedSchema {α : Type} (cache : SchemaCache α) (key : String) (data : α) (now : Nat) :
    SchemaCache α :=
  let evicted :=
    if MAX_CACHE_SIZE ≤ cache.length then
      match cache.head? with
      | some kv => mapDelete cache kv.1
      | none => cache
    else cache
  objInsert evicted key ⟨data, now⟩

/-- Source `invalidateCache`. -/
def invalidateCache {α : Type} (cache : SchemaCache α) (key : String) : SchemaCache α :=
  mapDelete cache key

/-! ### The request dispatcher (source: `rqliteRequest`)

The network is an oracle from the full request URL to what `fetch`
produced: either a thrown error (connection failure, abort on timeout,
JSON parse failure) or a decoded response, of which the dispatcher
inspects the HTTP status and the per-statement `error` fields.  The
backoff sleep and the verbose logging have no effect on the returned
value and are not modeled. -/

/-- The slice of the process-wide `CONFIG` object the dispatcher reads. -/
structure Config where
  requireTLS : Bool
  maxRequestSize : Nat
deriving DecidableEq

/-- One element of the decoded `results` array (only its `error` field is
inspected by the dispatcher). -/
structure StmtResult where
  error : Option String
deriving DecidableEq

/-- A decoded HTTP response. -/
structure Response where
  status : Nat
  results : List StmtResult
deriving DecidableEq

/-- What one `fetch` of a URL produced. -/
inductive NetResult where
  | thrown (msg : String)
  | response (resp : Response)
deriving DecidableEq

/-- The terminal errors `rqliteRequest` can throw. -/
inductive RqErr where
  | payloadTooLarge (size limit : Nat)
  | insecureBlocked (url : String)
  | unreachable (attempts : Nat) (lastError : Option String)
deriving DecidableEq

/-- The `res.ok` check: HTTP status in the 2xx range. -/
def respOk (r : Response) : Bool := 200 ≤ r.status && r.status < 300

/-- The first statement-level `error` in the results, if any (the source
loop throws on the first one it sees). -/
def findStmtError : List StmtResult → Option String
  | [] => none
  | r :: rest =>
    match r.error with
    | some e => some e
    | none => findStmtError rest

/-- Source `${baseUrl}:${port}${path}`. -/
def mkUrl (baseUrl : String) (port : Nat) (path : String) : String :=
  baseUrl ++ ":" ++ natToStr port ++ path

/-- The outcome of one endpoint attempt: the body of the source
`try`-block, with the recorded failure message on the error side. -/
def attemptOutcome (net : String → NetResult) (port : Nat) (path : String)
    (baseUrl : String) : Except String Response :=
  match net (mkUrl baseUrl port path) with
  | .thrown msg => .error msg
  | .response resp =>
    if respOk resp then
      match findStmtError resp.results with
      | some e => .error ("rqlite Error: " ++ e)
      | none => .ok resp
    else .error ("HTTP " ++ natToStr resp.status)

/-- The endpoint loop of `rqliteRequest`, carrying the `attempt` counter
and the last recorded failure.  The TLS policy check sits before the
`try`-block, so its throw is not caught: it ends the whole call. -/
def rqliteGo (cfg : Config) (net : String → NetResult) (port : Nat) (path : String) :
    List String → Nat → Option String → Except RqErr Response
  | [], attempt, lastError => .error (.unreachable attempt lastError)
  | baseUrl :: rest, attempt, _lastError =>
    if cfg.requireTLS && !(strStartsWith baseUrl "https://") then
      .error (.insecureBlocked baseUrl)
    else
      match attemptOutcome net port path baseUrl with
      | .ok resp => .ok resp
      | .error msg => rqliteGo cfg net port path rest (attempt + 1) (some msg)

/-- Source `rqliteRequest`: the payload-size pre-flight check, then the
endpoint loop.  `payloadSize` is the length of the serialized payload. -/
def rqliteRequest (cfg : Config) (net : String → NetResult) (port : Nat) (path : String)
    (baseUrls : List String) (payloadSize : Nat) : Except RqErr Response :=
  if cfg.maxRequestSize < payloadSize then
    .error (.payloadTooLarge payloadSize cfg.maxRequestSize)
  else rqliteGo cfg net port path baseUrls 0 none

/-- The failure message of an attempt, if it failed. -/
def attemptMsg? (r : Except String Response) : Option String :=
  match r with
  | .error m => some m
  | .ok _ => none

/-! ### Read-consistency selection (source: `querySQL`) -/

/-- The source regex test `/^\s*PRAGMA/i`. -/
def isPragmaQuery (sql : String) : Bool :=
  "PRAGMA".data.isPrefixOf ((sql.data.dropWhile jsWsChar).map Char.toUpper)

/-- Source `const level = levelOverride || (/^\s*PRAGMA/i.test(sql) ?
"strong" : "none")`.  A present non-empty override is truthy and wins; the
empty string is falsy and falls through, like an absent override. -/
def selectLevel (levelOverride : Option String) (sql : String) : String :=
  let fallback := if isPragmaQuery sql then "strong" else "none"
  match levelOverride with
  | some l => if l == "" then fallback else l
  | none => fallback

/-- The query path `querySQL` dispatches on, as a function of the
configured freshness settings, the caller override and the statement. -/
def querySQLPath (freshness : String) (freshnessStrict : Bool) (levelOverride : Option String)
    (sql : String) : String :=
  if selectLevel levelOverride sql == "strong" then
    "/db/query?named_parameters&level=strong"
  else
    "/db/query?named_parameters&level=none&freshness=" ++ freshness ++
      (if freshnessStrict then "&freshness_strict" else "")

/-! ### The find operations (source: `findMany`, `findUnique`,
`findFirst`)

`findMany` is embedded as the SQL/parameter assembly plus an execution
oracle standing for `querySQL` over the network; the oracle receives the
assembled SQL, the bound parameters and the consistency level, and
returns the reshaped rows. -/

/-- The argument object of `findMany`.  `orderBy` is the list of
`Object.entries(o)[0]` pairs of the supplied object(s); `limit` and
`offset` are JS integers (a non-integral JS number is outside this
model and is not needed by any claim). -/
structure FindArgs where
  whereQ : Option WhereObj
  select : Option (List (String × Bool))
  orderBy : Option (List (String × String))
  limit : Option Int
  offset : Option Int
  level : Option String

/-- The `orderBy` mapping of `findMany`; the source message uses quoted
ASC/DESC, elided here. -/
def orderClause : List (String × String) → Except String (List String)
  | [] => .ok []
  | (col, dir) :: rest =>
    let d := toUpperStr dir
    if d == "ASC" || d == "DESC" then
      match orderClause rest with
      | .error e => .error e
      | .ok os => .ok ((quote col ++ " " ++ d) :: os)
    else .error "Invalid order direction. Use ASC or DESC."

/-- The ORDER BY appending of `findMany`. -/
def addOrderBy (sql0 : String) : Option (List (String × String)) → Except String String
  | none => .ok sql0
  | some obs =>
    match orderClause obs with
    | .error e => .error e
    | .ok os => .ok (sql0 ++ " ORDER BY " ++ joinSep ", " os)

/-- The LIMIT appending and validation of `findMany`. -/
def addLimit (sql1 : String) : Option Int → Except String String
  | none => .ok sql1
  | some l =>
    if l < 0 then .error "Invalid limit. Must be a non-negative integer."
    else .ok (sql1 ++ " LIMIT " ++ intToStr l)

/-- The OFFSET appending and validation of `findMany`. -/
def addOffset (sql2 : String) : Option Int → Except String String
  | none => .ok sql2
  | some o =>
    if o < 0 then .error "Invalid offset. Must be a non-negative integer."
    else .ok (sql2 ++ " OFFSET " ++ intToStr o)

/-- The SQL text and parameters `findMany` assembles before calling
`querySQL`. -/
def findManySQL (fields : List String) (tableName : String) (a : FindArgs) :
    Except String (String × List (String × JSArg)) :=
  match buildWhere a.whereQ fields with
  | .error e => .error e
  | .ok (clause, params) =>
    let sel := buildSelect a.select fields
    let sql0 := "SELECT " ++ sel ++ " FROM " ++ quote tableName ++ " WHERE " ++ clause
    match addOrderBy sql0 a.orderBy with
    | .error e => .error e
    | .ok sql1 =>
      match addLimit sql1 a.limit with
      | .error e => .error e
      | .ok sql2 =>
        match addOffset sql2 a.offset with
        | .error e => .error e
        | .ok sql3 => .ok (sql3, params)

/-- Source `findMany`: assemble, then execute through the oracle. -/
def findMany {ρ : Type} (exec : String → List (String × JSArg) → Option String → List ρ)
    (fields : List String) (tableName : String) (a : FindArgs) : Except String (List ρ) :=
  (findManySQL fields tableName a).map (fun sp => exec sp.1 sp.2 a.level)

/-- Source `findUnique`: `findMany` with the limit forced to 1, first row
or null. -/
def findUnique {ρ : Type} (exec : String → List (String × JSArg) → Option String → List ρ)
    (fields : List String) (tableName : String) (a : FindArgs) : Except String (Option ρ) :=
  (findMany exec fields tableName { a with limit := some 1 }).map List.head?

/-- Source `findFirst`: textually the same body as `findUnique`. -/
def findFirst {ρ : Type} (exec : String → List (String × JSArg) → Option String → List ρ)
    (fields : List String) (tableName : String) (a : FindArgs) : Except String (Option ρ) :=
  (findMany exec fields tableName { a with limit := some 1 }).map List.head?

/-! ### Invariant framework for the where-compiler state -/

/-- Every parameter key recorded so far was generated by an earlier value
of the counter. -/
def goodKeys (st : BW) : Prop :=
  ∀ s ∈ st.params.map Prod.fst, ∃ j, j < st.idx ∧ s = keyFn j

/-- A compilation step only appends parameters, whose keys are exactly the
generated names for the counter interval it consumed. -/
def StepOk (st st' : BW) : Prop :=
  st.idx ≤ st'.idx ∧ ∃ extra, st'.params = st.params ++ extra ∧
    extra.map Prod.fst = (List.range' st.idx (st'.idx - st.idx)).map keyFn

/-! ### Theorems: parameter-name generation -/

theorem digitCh_inj {a b : Nat} (ha : a < 10) (hb : b < 10)
    (h : digitCh a = digitCh b) : a = b := by
  interval_cases a <;> interval_cases b <;> simp_all [digitCh]

theorem natDigitsAux_ne_nil {f n : Nat} (h : n < f) :
    natDigitsAux f n ≠ [] := by
  cases f with
  | zero => omega
  | succ f =>
    simp only [natDigitsAux]
    split
    · simp
    · simp

theorem natDigitsAux_fuel {f₁ f₂ n : Nat} (h₁ : n < f₁) (h₂ : n < f₂) :
    natDigitsAux f₁ n = natDigitsAux f₂ n := by
  induction n using Nat.strong_induction_on generalizing f₁ f₂ with
  | _ n ih =>
    cases f₁ with
    | zero => omega
    | succ f₁ =>
      cases f₂ with
      | zero => omega
      | succ f₂ =>
        simp only [natDigitsAux]
        split
        · rfl
        · have hn : ¬ n < 10 := by assumption
          have hd : n / 10 < n := Nat.div_lt_self (by omega) (by omega)
          rw [ih (n / 10) hd (show n / 10 < f₁ by omega) (show n / 10 < f₂ by omega)]

theorem natDigits_inj {m n : Nat}
    (h : natDigitsAux (m + 1) m = natDigitsAux (n + 1) n) : m = n := by
  induction m using Nat.strong_induction_on generalizing n with
  | _ m ih =>
    by_cases hm : m < 10 <;> by_cases hn : n < 10
    · simp only [natDigitsAux, if_pos hm, if_pos hn] at h
      exact digitCh_inj hm hn (by simpa using h)
    · exfalso
      simp only [natDigitsAux, if_pos hm, if_neg hn] at h
      have hnd : n / 10 < n := Nat.div_lt_self (by omega) (by omega)
      have hne : natDigitsAux n (n / 10) ≠ [] := natDigitsAux_ne_nil (by omega)
      have hl := congrArg List.length h
      rcases List.exists_cons_of_ne_nil hne with ⟨c, t, hct⟩
      rw [hct] at hl
      simp at hl
    · exfalso
      simp only [natDigitsAux, if_neg hm, if_pos hn] at h
      have hmd : m / 10 < m := Nat.div_lt_self (by omega) (by omega)
      have hne : natDigitsAux m (m / 10) ≠ [] := natDigitsAux_ne_nil (by omega)
      have hl := congrArg List.length h
      rcases List.exists_cons_of_ne_nil hne with ⟨c, t, hct⟩
      rw [hct] at hl
      simp at hl
    · simp only [natDigitsAux, if_neg hm, if_neg hn] at h
      have hr := congrArg List.reverse h
      simp only [List.reverse_append, List.reverse_cons, List.reverse_nil,
        List.nil_append, List.cons_append] at hr
      have hdig : digitCh (m % 10) = digitCh (n % 10) := by
        exact (List.cons.injEq _ _ _ _ ▸ hr).1
      have htail : (natDigitsAux m (m / 10)).reverse = (natDigitsAux n (n / 10)).reverse := by
        exact (List.cons.injEq _ _ _ _ ▸ hr).2
      have hmod : m % 10 = n % 10 :=
        digitCh_inj (Nat.mod_lt _ (by omega)) (Nat.mod_lt _ (by omega)) hdig
      have hpre : natDigitsAux m (m / 10) = natDigitsAux n (n / 10) :=
        List.reverse_injective htail
      have hmd : m / 10 < m := Nat.div_lt_self (by omega) (by omega)
      have hnd : n / 10 < n := Nat.div_lt_self (by omega) (by omega)
      have hnorm : natDigitsAux (m / 10 + 1) (m / 10) = natDigitsAux (n / 10 + 1) (n / 10) := by
        rw [← natDigitsAux_fuel hmd (Nat.lt_succ_self (m / 10)),
          ← natDigitsAux_fuel hnd (Nat.lt_succ_self (n / 10))]
        exact hpre
      have hdiv : m / 10 = n / 10 := ih (m / 10) hmd hnorm
      omega

theorem natToStr_inj : Function.Injective natToStr := by
  intro m n h
  exact natDigits_inj (congrArg String.data h)


theorem keyFn_inj : Function.Injective keyFn := by
  intro m n h
  have hd := congrArg String.data h
  simp only [keyFn, String.data_append] at hd
  have hc := List.append_cancel_left hd
  exact natToStr_inj (String.ext hc)

theorem objInsert_fresh {α : Type} (ps : List (String × α)) (k : String) (v : α)
    (h : ps.any (fun kv => kv.1 == k) = false) : objInsert ps k v = ps ++ [(k, v)] := by
  simp [objInsert, h]

theorem goodKeys_fresh (st : BW) (h : goodKeys st) :
    st.params.any (fun kv => kv.1 == keyFn st.idx) = false := by
  by_contra hc
  have hany : st.params.any (fun kv => kv.1 == keyFn st.idx) = true := by
    revert hc; cases st.params.any (fun kv => kv.1 == keyFn st.idx) <;> simp
  rcases List.any_eq_true.mp hany with ⟨kv, hmem, hkv⟩
  have hk : kv.1 = keyFn st.idx := by simpa using hkv
  rcases h kv.1 (List.mem_map.mpr ⟨kv, hmem, rfl⟩) with ⟨j, hj, hkey⟩
  have : j = st.idx := keyFn_inj (hkey ▸ hk)
  omega

theorem addParam_eq (st : BW) (v : JSArg) (h : goodKeys st) :
    addParam st v = (":" ++ keyFn st.idx, ⟨st.idx + 1, st.params ++ [(keyFn st.idx, v)]⟩) := by
  have hf := goodKeys_fresh st h
  simp [addParam, objInsert, hf]

theorem stepOk_refl (st : BW) : StepOk st st :=
  ⟨Nat.le_refl _, [], by simp, by simp⟩

theorem stepOk_trans {s t u : BW} (h₁ : StepOk s t) (h₂ : StepOk t u) : StepOk s u := by
  obtain ⟨hle₁, e₁, hp₁, hk₁⟩ := h₁
  obtain ⟨hle₂, e₂, hp₂, hk₂⟩ := h₂
  refine ⟨Nat.le_trans hle₁ hle₂, e₁ ++ e₂, by rw [hp₂, hp₁, List.append_assoc], ?_⟩
  rw [List.map_append, hk₁, hk₂, ← List.map_append]
  congr 1
  have h := List.range'_append s.idx (t.idx - s.idx) (u.idx - t.idx) 1
  have e1 : s.idx + 1 * (t.idx - s.idx) = t.idx := by omega
  have e2 : u.idx - t.idx + (t.idx - s.idx) = u.idx - s.idx := by omega
  rw [e1, e2] at h
  exact h

theorem goodKeys_of_step {st st' : BW} (hg : goodKeys st) (hs : StepOk st st') :
    goodKeys st' := by
  obtain ⟨hle, extra, hp, hk⟩ := hs
  intro s hmem
  rw [hp, List.map_append] at hmem
  rcases List.mem_append.mp hmem with hmem | hmem
  · rcases hg s hmem with ⟨j, hj, hj'⟩
    exact ⟨j, by omega, hj'⟩
  · rw [hk] at hmem
    rcases List.mem_map.mp hmem with ⟨j, hj, hj'⟩
    have := (List.mem_range'_1.mp hj).2
    exact ⟨j, by omega, hj'.symm⟩

theorem addParam_step (st : BW) (v : JSArg) :
    StepOk st ⟨st.idx + 1, st.params ++ [(keyFn st.idx, v)]⟩ := by
  refine ⟨Nat.le_succ _, [(keyFn st.idx, v)], rfl, ?_⟩
  simp [List.range'_one]

theorem addParams_spec : ∀ (vs : List Value) (st : BW), goodKeys st →
    addParams st vs = ((List.range' st.idx vs.length).map (fun i => ":" ++ keyFn i),
      ⟨st.idx + vs.length,
        st.params ++ (List.zip (List.range' st.idx vs.length) vs).map
          (fun p => (keyFn p.1, JSArg.prim p.2))⟩) := by
  intro vs
  induction vs with
  | nil => intro st hg; simp [addParams]
  | cons v rest ih =>
    intro st hg
    have hst' : goodKeys (⟨st.idx + 1, st.params ++ [(keyFn st.idx, JSArg.prim v)]⟩ : BW) :=
      goodKeys_of_step hg (addParam_step st (JSArg.prim v))
    simp only [addParams, addParam_eq st (JSArg.prim v) hg, ih _ hst']
    simp only [List.length_cons, List.range'_succ, List.map_cons, List.zip_cons_cons,
      List.append_assoc, List.cons_append, List.nil_append, List.singleton_append,
      Prod.mk.injEq, BW.mk.injEq]
    exact ⟨trivial, by omega, trivial⟩

theorem addParams_step (st : BW) (vs : List Value) (hg : goodKeys st) :
    StepOk st (addParams st vs).2 ∧ goodKeys (addParams st vs).2 := by
  rw [addParams_spec vs st hg]
  have hstep : StepOk st ⟨st.idx + vs.length,
      st.params ++ (List.zip (List.range' st.idx vs.length) vs).map
        (fun p => (keyFn p.1, JSArg.prim p.2))⟩ := by
    refine ⟨Nat.le_add_right _ _, _, rfl, ?_⟩
    rw [List.map_map]
    have hlen : (List.range' st.idx vs.length).length ≤ vs.length := by
      simp [List.length_range']
    calc (List.zip (List.range' st.idx vs.length) vs).map
          ((fun p : String × JSArg => p.1) ∘ fun p : Nat × Value => (keyFn p.1, JSArg.prim p.2))
        = (List.zip (List.range' st.idx vs.length) vs).map (keyFn ∘ Prod.fst) := rfl
      _ = ((List.zip (List.range' st.idx vs.length) vs).map Prod.fst).map keyFn := by
          rw [List.map_map]
      _ = (List.range' st.idx vs.length).map keyFn := by
          rw [List.map_fst_zip _ _ hlen]
      _ = (List.range' st.idx (st.idx + vs.length - st.idx)).map keyFn := by
          congr 2
          omega
  exact ⟨hstep, goodKeys_of_step hg hstep⟩

theorem applyOp_step (qk op : String) (a : JSArg) (st : BW) (part : String) (st' : BW)
    (hg : goodKeys st) (h : applyOp qk op a st = .ok (part, st')) :
    StepOk st st' ∧ goodKeys st' := by
  have hstep : ∀ v : JSArg, StepOk st ⟨st.idx + 1, st.params ++ [(keyFn st.idx, v)]⟩ ∧
      goodKeys ⟨st.idx + 1, st.params ++ [(keyFn st.idx, v)]⟩ := fun v =>
    ⟨addParam_step st v, goodKeys_of_step hg (addParam_step st v)⟩
  unfold applyOp at h
  split at h
  all_goals try (
    rw [addParam_eq st _ hg] at h
    simp only [Except.ok.injEq, Prod.mk.injEq] at h
    obtain ⟨hpart, hst⟩ := h
    subst hst
    exact hstep _)
  all_goals try (exact Except.noConfusion h)
  -- the remaining branch is the `in` operator
  split at h
  · rename_i vs
    split at h
    · simp only [Except.ok.injEq, Prod.mk.injEq] at h
      obtain ⟨hpart, hst⟩ := h
      subst hst
      exact ⟨stepOk_refl st, hg⟩
    · have hps := addParams_step st vs hg
      rcases hap : addParams st vs with ⟨phs, st₂⟩
      rw [hap] at h hps
      simp only [Except.ok.injEq, Prod.mk.injEq] at h
      obtain ⟨hpart, hst⟩ := h
      subst hst
      exact hps
  · exact Except.noConfusion h

theorem processOps_step (qk : String) : ∀ (ops : List (String × JSArg)) (st : BW)
    (parts : List String) (st' : BW), goodKeys st →
    processOps qk ops st = .ok (parts, st') → StepOk st st' ∧ goodKeys st' := by
  intro ops
  induction ops with
  | nil =>
    intro st parts st' hg h
    simp only [processOps, Except.ok.injEq, Prod.mk.injEq] at h
    obtain ⟨hparts, hst⟩ := h
    subst hst
    exact ⟨stepOk_refl st, hg⟩
  | cons hd rest ih =>
    intro st parts st' hg h
    obtain ⟨op, a⟩ := hd
    simp only [processOps] at h
    cases hop : applyOp qk op a st with
    | error msg => rw [hop] at h; exact Except.noConfusion h
    | ok r =>
      obtain ⟨part, st₁⟩ := r
      rw [hop] at h
      dsimp only [] at h
      cases hrest : processOps qk rest st₁ with
      | error msg => rw [hrest] at h; exact Except.noConfusion h
      | ok r₂ =>
        obtain ⟨parts₂, st₂⟩ := r₂
        rw [hrest] at h
        dsimp only [] at h
        simp only [Except.ok.injEq, Prod.mk.injEq] at h
        obtain ⟨hparts, hst⟩ := h
        subst hst
        obtain ⟨hs₁, hg₁⟩ := applyOp_step qk op a st part st₁ hg hop
        obtain ⟨hs₂, hg₂⟩ := ih st₁ parts₂ st₂ hg₁ hrest
        exact ⟨stepOk_trans hs₁ hs₂, hg₂⟩

theorem process_inv : ∀ n : Nat,
    (∀ (fields : List String) (es : List WhereEntry), sizeOf es = n →
      ∀ (st : BW) (parts : List String) (st' : BW), goodKeys st →
        processParts fields es st = .ok (parts, st') → StepOk st st' ∧ goodKeys st') ∧
    (∀ (fields : List String) (e : WhereEntry), sizeOf e = n →
      ∀ (st : BW) (parts : List String) (st' : BW), goodKeys st →
        processEntry fields e st = .ok (parts, st') → StepOk st st' ∧ goodKeys st') ∧
    (∀ (fields : List String) (bs : List (List WhereEntry)), sizeOf bs = n →
      ∀ (st : BW) (cls : List String) (st' : BW), goodKeys st →
        processBranches fields bs st = .ok (cls, st') → StepOk st st' ∧ goodKeys st') := by
  intro n
  induction n using Nat.strong_induction_on with
  | _ n ih =>
    refine ⟨?_, ?_, ?_⟩
    · intro fields es hsz st parts st' hg h
      cases es with
      | nil =>
        simp only [processParts, Except.ok.injEq, Prod.mk.injEq] at h
        obtain ⟨hp, hst⟩ := h
        subst hst
        exact ⟨stepOk_refl st, hg⟩
      | cons e rest =>
        simp only [processParts] at h
        cases he : processEntry fields e st with
        | error msg => rw [he] at h; exact Except.noConfusion h
        | ok r =>
          obtain ⟨ps, st₁⟩ := r
          rw [he] at h
          dsimp only [] at h
          cases hr : processParts fields rest st₁ with
          | error msg => rw [hr] at h; exact Except.noConfusion h
          | ok r₂ =>
            obtain ⟨qs, st₂⟩ := r₂
            rw [hr] at h
            dsimp only [] at h
            simp only [Except.ok.injEq, Prod.mk.injEq] at h
            obtain ⟨hp, hst⟩ := h
            subst hst
            have hsz₁ : sizeOf e < n := by
              subst hsz; simp only [List.cons.sizeOf_spec]; omega
            have hsz₂ : sizeOf rest < n := by
              subst hsz
              simp only [List.cons.sizeOf_spec]
              have : 0 < sizeOf e := by cases e <;> simp
              omega
            obtain ⟨hs₁, hg₁⟩ := (ih (sizeOf e) hsz₁).2.1 fields e rfl st ps st₁ hg he
            obtain ⟨hs₂, hg₂⟩ := (ih (sizeOf rest) hsz₂).1 fields rest rfl st₁ qs st₂ hg₁ hr
            exact ⟨stepOk_trans hs₁ hs₂, hg₂⟩
    · intro fields e hsz st parts st' hg h
      cases e with
      | orE bs =>
        simp only [processEntry] at h
        cases hb : processBranches fields bs st with
        | error msg => rw [hb] at h; exact Except.noConfusion h
        | ok r =>
          obtain ⟨cls, st₁⟩ := r
          rw [hb] at h
          dsimp only [] at h
          simp only [Except.ok.injEq, Prod.mk.injEq] at h
          obtain ⟨hp, hst⟩ := h
          subst hst
          have hszb : sizeOf bs < n := by
            subst hsz; simp only [WhereEntry.orE.sizeOf_spec]; omega
          exact (ih (sizeOf bs) hszb).2.2 fields bs rfl st cls st₁ hg hb
      | notE sub =>
        simp only [processEntry] at h
        cases hp : processParts fields sub st with
        | error msg => rw [hp] at h; exact Except.noConfusion h
        | ok r =>
          obtain ⟨ps, st₁⟩ := r
          rw [hp] at h
          dsimp only [] at h
          simp only [Except.ok.injEq, Prod.mk.injEq] at h
          obtain ⟨hps, hst⟩ := h
          subst hst
          have hszs : sizeOf sub < n := by
            subst hsz; simp only [WhereEntry.notE.sizeOf_spec]; omega
          exact (ih (sizeOf sub) hszs).1 fields sub rfl st ps st₁ hg hp
      | fieldE name cond =>
        simp only [processEntry] at h
        split at h
        · cases cond with
          | isNullC =>
            dsimp only [] at h
            simp only [Except.ok.injEq, Prod.mk.injEq] at h
            obtain ⟨hp, hst⟩ := h
            subst hst
            exact ⟨stepOk_refl st, hg⟩
          | scalar v =>
            dsimp only [] at h
            rw [addParam_eq st _ hg] at h
            simp only [Except.ok.injEq, Prod.mk.injEq] at h
            obtain ⟨hp, hst⟩ := h
            subst hst
            exact ⟨addParam_step st _, goodKeys_of_step hg (addParam_step st _)⟩
          | opMap ops =>
            dsimp only [] at h
            exact processOps_step (quote name) ops st parts st' hg h
        · exact Except.noConfusion h
    · intro fields bs hsz st cls st' hg h
      cases bs with
      | nil =>
        simp only [processBranches, Except.ok.injEq, Prod.mk.injEq] at h
        obtain ⟨hp, hst⟩ := h
        subst hst
        exact ⟨stepOk_refl st, hg⟩
      | cons b rest =>
        simp only [processBranches] at h
        cases hb : processParts fields b st with
        | error msg => rw [hb] at h; exact Except.noConfusion h
        | ok r =>
          obtain ⟨ps, st₁⟩ := r
          rw [hb] at h
          dsimp only [] at h
          cases hr : processBranches fields rest st₁ with
          | error msg => rw [hr] at h; exact Except.noConfusion h
          | ok r₂ =>
            obtain ⟨cls₂, st₂⟩ := r₂
            rw [hr] at h
            dsimp only [] at h
            simp only [Except.ok.injEq, Prod.mk.injEq] at h
            obtain ⟨hp, hst⟩ := h
            subst hst
            have hsz₁ : sizeOf b < n := by
              subst hsz; simp only [List.cons.sizeOf_spec]; omega
            have hsz₂ : sizeOf rest < n := by
              subst hsz
              simp only [List.cons.sizeOf_spec]
              have : 0 < sizeOf b := by cases b <;> simp
              omega
            obtain ⟨hs₁, hg₁⟩ := (ih (sizeOf b) hsz₁).1 fields b rfl st ps st₁ hg hb
            obtain ⟨hs₂, hg₂⟩ := (ih (sizeOf rest) hsz₂).2.2 fields rest rfl st₁ cls₂ st₂ hg₁ hr
            exact ⟨stepOk_trans hs₁ hs₂, hg₂⟩

/-- The parameter names a successful compilation produces are exactly the
generated names `p_0 … p_(n-1)`, in order. -/
theorem buildWhere_paramNames (w : Option WhereObj) (fields : List String)
    (clause : String) (ps : List (String × JSArg))
    (h : buildWhere w fields = .ok (clause, ps)) :
    ps.map Prod.fst = (List.range ps.length).map keyFn := by
  cases w with
  | none =>
    simp only [buildWhere, Except.ok.injEq, Prod.mk.injEq] at h
    obtain ⟨hc, hps⟩ := h
    subst hps
    simp
  | some entries =>
    simp only [buildWhere] at h
    split at h
    · simp only [Except.ok.injEq, Prod.mk.injEq] at h
      obtain ⟨hc, hps⟩ := h
      subst hps
      simp
    · cases hp : processParts fields entries ⟨0, []⟩ with
      | error msg => rw [hp] at h; exact Except.noConfusion h
      | ok r =>
        obtain ⟨parts, st⟩ := r
        rw [hp] at h
        dsimp only [] at h
        simp only [Except.ok.injEq, Prod.mk.injEq] at h
        obtain ⟨hc, hps⟩ := h
        subst hps
        have hg0 : goodKeys ⟨0, []⟩ := by intro s hs; simp at hs
        obtain ⟨hstep, hgood⟩ :=
          (process_inv (sizeOf entries)).1 fields entries rfl ⟨0, []⟩ parts st hg0 hp
        obtain ⟨hle, extra, hparams, hkeys⟩ := hstep
        dsimp only [] at hparams hkeys
        rw [List.nil_append] at hparams
        have hlen := congrArg List.length hkeys
        simp only [List.length_map, List.length_range'] at hlen
        rw [hparams, hkeys, List.range_eq_range']
        congr 2
        omega

/-! ### Support lemmas: update loop, cache map, dispatcher loop, select -/

theorem updGo_gate_error : ∀ (data : List (String × UpdateVal)) (c expr : String)
    (args : Option (List (String × Value))) (params : List (String × JSArg)) (mIdx : Nat),
    (c, UpdateVal.math expr args) ∈ data → validateMathExpression expr = false →
    updGo data params mIdx = .error "Unsafe math expression detected. Operation blocked." := by
  intro data
  induction data with
  | nil => intro c expr args params mIdx hmem _; simp at hmem
  | cons hd rest ih =>
    intro c expr args params mIdx hmem hval
    obtain ⟨c', v'⟩ := hd
    rcases List.mem_cons.mp hmem with hhd | htl
    · have hv : UpdateVal.math expr args = v' := congrArg Prod.snd hhd
      subst hv
      simp [updGo, hval]
    · cases v' with
      | scalar val =>
        simp only [updGo]
        rw [ih c expr args _ _ htl hval]
      | increment nv =>
        simp only [updGo]
        rw [ih c expr args _ _ htl hval]
      | math expr' args' =>
        simp only [updGo]
        split
        · rw [ih c expr args _ _ htl hval]
        · rfl
      | otherObj =>
        simp only [updGo]
        exact ih c expr args _ _ htl hval

theorem mapGet_mapDelete_self {α : Type} (m : List (String × α)) (k : String) :
    mapGet (mapDelete m k) k = none := by
  induction m with
  | nil => rfl
  | cons kv rest ih =>
    by_cases hk : kv.1 == k
    · simpa [mapDelete, hk] using ih
    · simpa [mapDelete, mapGet, List.find?, hk] using ih

theorem mapGet_mapUpdate_ne {α : Type} (ps : List (String × α)) (key k : String) (v : α)
    (h : ¬ (k == key)) :
    mapGet (ps.map (fun kv => if kv.1 == key then (key, v) else kv)) k = mapGet ps k := by
  induction ps with
  | nil => rfl
  | cons kv rest ih =>
    by_cases hk : kv.1 == key
    · have hne : ¬ (key == k) := by
        intro hc
        have hkey : key = k := by simpa using hc
        exact h (beq_iff_eq.mpr hkey.symm)
      have hne' : ¬ (kv.1 == k) := by
        intro hc
        have h2 : kv.1 = k := by simpa using hc
        have h1 : kv.1 = key := by simpa using hk
        have hkey : k = key := by rw [← h2]; exact h1
        exact h (beq_iff_eq.mpr hkey)
      simp only [List.map_cons, hk, if_pos]
      simpa [mapGet, List.find?, hne, hne'] using ih
    · simp only [List.map_cons, hk, if_neg, if_false]
      by_cases hkk : kv.1 == k
      · simp [mapGet, List.find?, hkk]
      · simpa [mapGet, List.find?, hkk] using ih

theorem mapGet_append_single_ne {α : Type} (ps : List (String × α)) (key k : String) (v : α)
    (h : ¬ (k == key)) :
    mapGet (ps ++ [(key, v)]) k = mapGet ps k := by
  induction ps with
  | nil =>
    have hne : ¬ (key == k) := by
      intro hc
      have hkey : key = k := by simpa using hc
      exact h (beq_iff_eq.mpr hkey.symm)
    simp [mapGet, List.find?, hne]
  | cons kv rest ih =>
    by_cases hkk : kv.1 == k
    · simp [mapGet, List.find?, hkk]
    · simpa [mapGet, List.find?, hkk] using ih

theorem mapGet_objInsert_ne {α : Type} (ps : List (String × α)) (key k : String) (v : α)
    (h : ¬ (k == key)) :
    mapGet (objInsert ps key v) k = mapGet ps k := by
  unfold objInsert
  split
  · exact mapGet_mapUpdate_ne ps key k v h
  · exact mapGet_append_single_ne ps key k v h

theorem rqliteGo_cons (cfg : Config) (net : String → NetResult) (port : Nat) (path : String)
    (u : String) (rest : List String) (attempt : Nat) (lastError : Option String) :
    rqliteGo cfg net port path (u :: rest) attempt lastError =
      if cfg.requireTLS && !(strStartsWith u "https://") then .error (.insecureBlocked u)
      else
        match attemptOutcome net port path u with
        | .ok resp => .ok resp
        | .error msg => rqliteGo cfg net port path rest (attempt + 1) (some msg) := rfl

theorem rqliteGo_cons_ok (cfg : Config) (net : String → NetResult) (port : Nat) (path : String)
    (u : String) (rest : List String) (attempt : Nat) (lastError : Option String)
    (resp : Response) (htls : cfg.requireTLS = false)
    (hok : attemptOutcome net port path u = .ok resp) :
    rqliteGo cfg net port path (u :: rest) attempt lastError = .ok resp := by
  rw [rqliteGo_cons, htls, hok]
  rfl

theorem rqliteGo_cons_fail (cfg : Config) (net : String → NetResult) (port : Nat) (path : String)
    (u : String) (rest : List String) (attempt : Nat) (lastError : Option String)
    (msg : String) (htls : cfg.requireTLS = false)
    (hmsg : attemptOutcome net port path u = .error msg) :
    rqliteGo cfg net port path (u :: rest) attempt lastError =
      rqliteGo cfg net port path rest (attempt + 1) (some msg) := by
  rw [rqliteGo_cons, htls, hmsg]
  rfl

theorem go_first_ok (cfg : Config) (net : String → NetResult) (port : Nat) (path : String)
    (htls : cfg.requireTLS = false) :
    ∀ (pre : List String) (u : String) (post : List String) (resp : Response)
      (attempt : Nat) (lastError : Option String),
    (∀ v ∈ pre, ∃ msg, attemptOutcome net port path v = .error msg) →
    attemptOutcome net port path u = .ok resp →
    rqliteGo cfg net port path (pre ++ u :: post) attempt lastError = .ok resp := by
  intro pre
  induction pre with
  | nil =>
    intro u post resp attempt lastError _ hok
    rw [List.nil_append]
    exact rqliteGo_cons_ok cfg net port path u post attempt lastError resp htls hok
  | cons v pre ih =>
    intro u post resp attempt lastError hpre hok
    obtain ⟨msg, hmsg⟩ := hpre v (List.mem_cons_self v pre)
    rw [List.cons_append,
      rqliteGo_cons_fail cfg net port path v (pre ++ u :: post) attempt lastError msg htls hmsg]
    exact ih u post resp (attempt + 1) (some msg)
      (fun w hw => hpre w (List.mem_cons_of_mem v hw)) hok

theorem go_all_fail (cfg : Config) (net : String → NetResult) (port : Nat) (path : String)
    (htls : cfg.requireTLS = false) :
    ∀ (urls : List String) (attempt : Nat) (lastError : Option String) (lastU : String),
    urls.getLast? = some lastU →
    (∀ v ∈ urls, ∃ msg, attemptOutcome net port path v = .error msg) →
    rqliteGo cfg net port path urls attempt lastError =
      .error (.unreachable (attempt + urls.length)
        (attemptMsg? (attemptOutcome net port path lastU))) := by
  intro urls
  induction urls with
  | nil => intro _ _ lastU h _; simp at h
  | cons u rest ih =>
    intro attempt lastError lastU hlast hfail
    obtain ⟨msg, hmsg⟩ := hfail u (List.mem_cons_self u rest)
    cases rest with
    | nil =>
      have hu : u = lastU := by simpa using hlast
      subst hu
      rw [rqliteGo_cons_fail cfg net port path u [] attempt lastError msg htls hmsg]
      simp [rqliteGo, attemptMsg?, hmsg]
    | cons u₂ rest₂ =>
      have hlast' : (u₂ :: rest₂).getLast? = some lastU := by
        rwa [List.getLast?_cons_cons] at hlast
      rw [rqliteGo_cons_fail cfg net port path u (u₂ :: rest₂) attempt lastError msg htls hmsg]
      rw [ih (attempt + 1) (some msg) lastU hlast'
        (fun w hw => hfail w (List.mem_cons_of_mem u hw))]
      have harith : attempt + 1 + (u₂ :: rest₂).length = attempt + (u :: u₂ :: rest₂).length := by
        simp only [List.length_cons]
        omega
      rw [harith]

theorem quote_length (k : String) : (quote k).length = k.length + 2 := by
  have h1 : ("\"" : String).length = 1 := rfl
  simp [quote, String.length_append, h1]
  omega

theorem joinSep_ne_star (x : String) (xs : List String) (hx : 2 ≤ x.length) :
    joinSep ", " (x :: xs) ≠ "*" := by
  intro hcontra
  have hstar : ("*" : String).length = 1 := rfl
  cases xs with
  | nil =>
    simp only [joinSep] at hcontra
    subst hcontra
    omega
  | cons y ys =>
    have hlen := congrArg String.length hcontra
    simp only [joinSep, String.length_append, hstar] at hlen
    omega

/-! ### Claim theorems -/

/-- C1: whenever an update `data` object contains a column whose `math`
expression fails the safety gate (`validateMathExpression`, i.e. a
character outside the whitelist or a blocklisted keyword/comment token,
case-insensitively), and the where clause itself compiles, the update
fails with the UnsafeExpression error before any argument-placeholder
substitution, producing no SQL text and no bound parameters. -/
theorem c1_math_gate_blocks_update (fields : List String) (tableName : String)
    (whereQ : Option WhereObj) (data : List (String × UpdateVal)) (c expr : String)
    (args : Option (List (String × Value))) (wr : String × List (String × JSArg))
    (hw : buildWhere whereQ fields = .ok wr)
    (hmem : (c, UpdateVal.math expr args) ∈ data)
    (hgate : validateMathExpression expr = false) :
    updateStatement fields tableName whereQ data =
      .error "Unsafe math expression detected. Operation blocked." := by
  obtain ⟨clause, params⟩ := wr
  unfold updateStatement
  rw [hw]
  dsimp only []
  unfold buildUpdateSets
  rw [updGo_gate_error data c expr args params 0 hmem hgate]

/-- C1 witness: the spec scenario `math: "1; DROP TABLE users"` is
rejected by the gate and the update produces only the error. -/
theorem c1_witness :
    validateMathExpression "1; DROP TABLE users" = false ∧
    updateStatement ["id", "balance"] "users" none
        [("balance", UpdateVal.math "1; DROP TABLE users" none)] =
      .error "Unsafe math expression detected. Operation blocked." := by
  constructor
  · decide
  · exact c1_math_gate_blocks_update ["id", "balance"] "users" none
      [("balance", UpdateVal.math "1; DROP TABLE users" none)] "balance"
      "1; DROP TABLE users" none ("1=1", []) rfl (List.mem_singleton.mpr rfl) (by decide)

/-- C2: the source comment beside the level computation says PRAGMA
always uses strong consistency, and the only internal PRAGMA call site
passes the override `"strong"`, but `levelOverride || …` gives the
caller override precedence: with override `"none"` a PRAGMA statement is
recognized as a PRAGMA and is still dispatched on the bounded freshness
path, contradicting the claim. -/
theorem c2_pragma_override_bug :
    isPragmaQuery "PRAGMA table_info(\"users\")" = true ∧
    selectLevel (some "none") "PRAGMA table_info(\"users\")" = "none" ∧
    selectLevel none "PRAGMA table_info(\"users\")" = "strong" ∧
    querySQLPath "0.1s" true (some "none") "PRAGMA table_info(\"users\")" =
      "/db/query?named_parameters&level=none&freshness=0.1s&freshness_strict" := by
  exact ⟨by decide, by decide, by decide, by decide⟩

/-- C3 counterexample: with `requireTLS` enabled, endpoints
`[http://a, https://b]` and a network on which the HTTPS endpoint would
succeed, the call returns the insecure-endpoint error instead of the
later endpoint's success: the TLS throw sits outside the try block, so
the rejection is fatal to the whole call, not a per-endpoint skip. -/
theorem c3_counterexample :
    attemptOutcome
        (fun url => if url == "https://b:4001/db/execute?named_parameters"
          then NetResult.response ⟨200, [⟨none⟩]⟩ else NetResult.thrown "ECONNREFUSED")
        4001 "/db/execute?named_parameters" "https://b" = .ok ⟨200, [⟨none⟩]⟩ ∧
    rqliteRequest ⟨true, 1048576⟩
        (fun url => if url == "https://b:4001/db/execute?named_parameters"
          then NetResult.response ⟨200, [⟨none⟩]⟩ else NetResult.thrown "ECONNREFUSED")
        4001 "/db/execute?named_parameters" ["http://a", "https://b"] 10 =
      .error (RqErr.insecureBlocked "http://a") := by
  exact ⟨by decide, by decide⟩

/-- C3 amended: under `requireTLS`, reaching a non-HTTPS endpoint is
rejected without a network call and is fatal to the whole dispatch call:
no later endpoint is attempted, for every network behavior. -/
theorem c3_amended (cfg : Config) (net : String → NetResult) (port : Nat) (path : String)
    (u : String) (rest : List String) (attempt : Nat) (lastError : Option String)
    (htls : cfg.requireTLS = true) (hu : strStartsWith u "https://" = false) :
    rqliteGo cfg net port path (u :: rest) attempt lastError =
      .error (RqErr.insecureBlocked u) := by
  rw [rqliteGo_cons, htls, hu]
  rfl

/-- C3 amended witness at a concrete insecure first endpoint. -/
theorem c3_amended_witness :
    rqliteGo ⟨true, 1048576⟩ (fun _ => NetResult.thrown "x") 4001 "/db/execute"
      ["http://a", "https://b"] 0 none = .error (RqErr.insecureBlocked "http://a") := by
  exact c3_amended ⟨true, 1048576⟩ (fun _ => NetResult.thrown "x") 4001 "/db/execute"
    "http://a" ["https://b"] 0 none rfl (by decide)

/-- C4 counterexample: with the cache at its capacity of 100 entries and
`k50` already present, a `set` of `k50` still evicts the earliest
inserted key `k0`; the claim says an overwrite at capacity evicts
nothing. -/
theorem c4_counterexample :
    (mapGet ((List.range 100).map
        (fun i => ("k" ++ natToStr i, CacheEntry.mk (i : Nat) 0))) "k50").isSome = true ∧
    mapGet (setCachedSchema ((List.range 100).map
        (fun i => ("k" ++ natToStr i, CacheEntry.mk (i : Nat) 0))) "k50" 999 1) "k0" = none := by
  exact ⟨by decide, by decide⟩

/-- C4 amended: at the capacity bound a `set` always evicts the earliest
inserted entry, whether or not the key being set is already present
(only when the head key happens to be the key being set is nothing else
lost); below that the eviction branch never runs.  Here: if the cache
has at least 100 entries and its earliest entry's key differs from the
key being set, `set` deletes that earliest key and writes the new entry. -/
theorem c4_amended {α : Type} (m : SchemaCache α) (key : String) (d : α) (now : Nat)
    (k0 : String) (e0 : CacheEntry α)
    (hcap : MAX_CACHE_SIZE ≤ m.length) (hhead : m.head? = some (k0, e0)) (hne : k0 ≠ key) :
    setCachedSchema m key d now = objInsert (mapDelete m k0) key ⟨d, now⟩ ∧
    mapGet (setCachedSchema m key d now) k0 = none := by
  have hset : setCachedSchema m key d now = objInsert (mapDelete m k0) key ⟨d, now⟩ := by
    simp [setCachedSchema, hhead, hcap]
  refine ⟨hset, ?_⟩
  rw [hset]
  rw [mapGet_objInsert_ne _ _ _ _ (by simpa using hne)]
  exact mapGet_mapDelete_self m k0

/-- C4 amended witness on the concrete 100-entry cache. -/
theorem c4_amended_witness :
    setCachedSchema ((List.range 100).map
        (fun i => ("k" ++ natToStr i, CacheEntry.mk (i : Nat) 0))) "k50" 7 5 =
      objInsert (mapDelete ((List.range 100).map
        (fun i => ("k" ++ natToStr i, CacheEntry.mk (i : Nat) 0))) "k0") "k50" ⟨7, 5⟩ ∧
    mapGet (setCachedSchema ((List.range 100).map
        (fun i => ("k" ++ natToStr i, CacheEntry.mk (i : Nat) 0))) "k50" 7 5) "k0" = none := by
  exact c4_amended _ "k50" 7 5 "k0" ⟨0, 0⟩ (by decide) (by decide) (by decide)

/-- C5: dispatch over a non-empty endpoint list (with the TLS gate not
firing and the payload within bounds) tries endpoints sequentially in
order, returns the first success immediately, and when every endpoint
fails it fails with Unreachable carrying the number of attempts (the
list length) and the last underlying failure message. -/
theorem c5_dispatch_order (cfg : Config) (net : String → NetResult) (port : Nat) (path : String)
    (urls : List String) (payloadSize : Nat)
    (htls : cfg.requireTLS = false) (hsize : payloadSize ≤ cfg.maxRequestSize) :
    (∀ (pre : List String) (u : String) (post : List String) (resp : Response),
        urls = pre ++ u :: post →
        (∀ v ∈ pre, ∃ msg, attemptOutcome net port path v = .error msg) →
        attemptOutcome net port path u = .ok resp →
        rqliteRequest cfg net port path urls payloadSize = .ok resp) ∧
    (∀ lastU : String, urls.getLast? = some lastU →
        (∀ v ∈ urls, ∃ msg, attemptOutcome net port path v = .error msg) →
        rqliteRequest cfg net port path urls payloadSize =
          .error (RqErr.unreachable urls.length
            (attemptMsg? (attemptOutcome net port path lastU)))) := by
  have hnotlarge : ¬ (cfg.maxRequestSize < payloadSize) := by omega
  constructor
  · intro pre u post resp hurls hpre hok
    unfold rqliteRequest
    rw [if_neg hnotlarge, hurls]
    exact go_first_ok cfg net port path htls pre u post resp 0 none hpre hok
  · intro lastU hlast hfail
    unfold rqliteRequest
    rw [if_neg hnotlarge]
    have h := go_all_fail cfg net port path htls urls 0 none lastU hlast hfail
    simpa using h

/-- C5 witness: the spec scenario — endpoints `[A (down), B (up)]`
return B's result; `[A (down), B (down)]` fails Unreachable with 2
attempts and the last cause. -/
theorem c5_witness :
    rqliteRequest ⟨false, 1000000⟩
        (fun url => if url == "https://b:4001/db/query?named_parameters&level=strong"
          then NetResult.response ⟨200, [⟨none⟩]⟩ else NetResult.thrown "ECONNREFUSED")
        4001 "/db/query?named_parameters&level=strong" ["http://a", "https://b"] 10 =
      .ok ⟨200, [⟨none⟩]⟩ ∧
    rqliteRequest ⟨false, 1000000⟩ (fun _ => NetResult.thrown "ECONNREFUSED")
        4001 "/db/query?named_parameters&level=strong" ["http://a", "https://b"] 10 =
      .error (RqErr.unreachable 2 (some "ECONNREFUSED")) := by
  constructor
  · exact (c5_dispatch_order ⟨false, 1000000⟩ _ 4001 _ ["http://a", "https://b"] 10
      rfl (by decide)).1 ["http://a"] "https://b" [] ⟨200, [⟨none⟩]⟩ rfl
      (by
        intro v hv
        simp only [List.mem_singleton] at hv
        subst hv
        exact ⟨"ECONNREFUSED", by decide⟩)
      (by decide)
  · have h := (c5_dispatch_order ⟨false, 1000000⟩ (fun _ => NetResult.thrown "ECONNREFUSED")
      4001 "/db/query?named_parameters&level=strong" ["http://a", "https://b"] 10
      rfl (by decide)).2 "https://b" (by decide)
      (by
        intro v hv
        exact ⟨"ECONNREFUSED", rfl⟩)
    exact h.trans (by decide)

/-- C6 counterexample: the parameter counter is a local variable of each
`buildWhere` call, not process state, so compiling the same filter twice
(the two syntactic occurrences below are the two calls of the claim)
produces the same parameter names — both compilations name their single
parameter `p_0` — refuting "syntactically different parameter names". -/
theorem c6_counterexample :
    paramNamesOf (buildWhere (some [.fieldE "age" (.opMap [("gt", .prim (.vInt 18))])])
      ["age"]) = ["p_0"] ∧
    paramNamesOf (buildWhere (some [.fieldE "age" (.opMap [("gt", .prim (.vInt 18))])])
      ["age"]) = ["p_0"] := by
  exact ⟨by decide, by decide⟩

/-- C6 amended: compiling the same logical filter expression twice yields
syntactically identical clauses, parameter names and bound values (the
counter is reset for every compilation, since it is local to the call);
within each compilation the names are exactly `p_0 … p_(n-1)` in binding
order, so the two compilations also bind the same values in the same
relative order. -/
theorem c6_amended (w : Option WhereObj) (fields : List String)
    (r₁ r₂ : Except String (String × List (String × JSArg)))
    (h₁ : buildWhere w fields = r₁) (h₂ : buildWhere w fields = r₂) :
    r₁ = r₂ ∧ (∀ clause ps, r₁ = .ok (clause, ps) →
      ps.map Prod.fst = (List.range ps.length).map keyFn) := by
  constructor
  · rw [← h₁, ← h₂]
  · intro clause ps hok
    exact buildWhere_paramNames w fields clause ps (h₁.trans hok)

/-- C6 amended witness: two compilations of the same concrete filter
agree, and the single parameter of the result is named `p_0`. -/
theorem c6_amended_witness :
    buildWhere (some [WhereEntry.fieldE "age"
        (FieldCond.opMap [("gt", JSArg.prim (Value.vInt 18))])]) ["age"] =
      buildWhere (some [WhereEntry.fieldE "age"
        (FieldCond.opMap [("gt", JSArg.prim (Value.vInt 18))])]) ["age"] ∧
    [("p_0", JSArg.prim (Value.vInt 18))].map Prod.fst = (List.range 1).map keyFn := by
  have h := c6_amended (some [WhereEntry.fieldE "age"
      (FieldCond.opMap [("gt", JSArg.prim (Value.vInt 18))])]) ["age"]
    (buildWhere (some [WhereEntry.fieldE "age"
      (FieldCond.opMap [("gt", JSArg.prim (Value.vInt 18))])]) ["age"])
    (buildWhere (some [WhereEntry.fieldE "age"
      (FieldCond.opMap [("gt", JSArg.prim (Value.vInt 18))])]) ["age"]) rfl rfl
  exact ⟨h.1, h.2 "\"age\" > :p_0" [("p_0", JSArg.prim (Value.vInt 18))] (by decide)⟩

/-- C7: within one compiled statement all generated parameter names are
pairwise distinct — for every filter tree (nested OR/NOT included, also
when the same field and operator appear in sibling branches), the keys of
the parameter bag of a successful compilation have no duplicates, so no
binding is ever overwritten by a later one. -/
theorem c7_param_names_nodup (w : Option WhereObj) (fields : List String) (clause : String)
    (ps : List (String × JSArg)) (h : buildWhere w fields = .ok (clause, ps)) :
    (ps.map Prod.fst).Nodup := by
  rw [buildWhere_paramNames w fields clause ps h]
  exact List.Nodup.map keyFn_inj (List.nodup_range _)

/-- C7 witness: a filter with the same field/operator in two sibling
branches under OR/NOT compiles with distinct names `p_0`, `p_1`. -/
theorem c7_witness :
    buildWhere (some [WhereEntry.orE
        [[WhereEntry.fieldE "name" (FieldCond.opMap [("contains", JSArg.prim (Value.vStr "jo"))])],
         [WhereEntry.notE [WhereEntry.fieldE "name"
            (FieldCond.opMap [("contains", JSArg.prim (Value.vStr "jo"))])]]]]) ["name"] =
      .ok ("(\"name\" LIKE :p_0 OR NOT (\"name\" LIKE :p_1))",
        [("p_0", JSArg.prim (Value.vStr "%jo%")), ("p_1", JSArg.prim (Value.vStr "%jo%"))]) ∧
    ([("p_0", JSArg.prim (Value.vStr "%jo%")),
      ("p_1", JSArg.prim (Value.vStr "%jo%"))].map Prod.fst).Nodup := by
  refine ⟨by decide, ?_⟩
  exact c7_param_names_nodup
    (some [WhereEntry.orE
      [[WhereEntry.fieldE "name" (FieldCond.opMap [("contains", JSArg.prim (Value.vStr "jo"))])],
       [WhereEntry.notE [WhereEntry.fieldE "name"
          (FieldCond.opMap [("contains", JSArg.prim (Value.vStr "jo"))])]]]]) ["name"]
    "(\"name\" LIKE :p_0 OR NOT (\"name\" LIKE :p_1))"
    [("p_0", JSArg.prim (Value.vStr "%jo%")), ("p_1", JSArg.prim (Value.vStr "%jo%"))]
    (by decide)

/-- C8: the `in` operator with an empty list compiles to the always-false
predicate `1=0` binding no parameters (never an empty `IN ()`), and with
a non-empty list of n values it compiles to an IN predicate with exactly
n placeholders, binding the values in list order. -/
theorem c8_in_operator (f : String) (fields : List String) (vs : List Value)
    (hf : fields.contains f = true) :
    buildWhere (some [.fieldE f (.opMap [("in", .arr [])])]) fields = .ok ("1=0", []) ∧
    (vs ≠ [] →
      buildWhere (some [.fieldE f (.opMap [("in", .arr vs)])]) fields =
        .ok (quote f ++ " IN (" ++
            joinSep ", " ((List.range vs.length).map (fun i => ":" ++ keyFn i)) ++ ")",
          (List.zip (List.range vs.length) vs).map (fun p => (keyFn p.1, JSArg.prim p.2)))) := by
  have hf' : f ∈ fields := by simpa using hf
  constructor
  · simp [buildWhere, processParts, processEntry, processOps, applyOp, hf', joinSep]
  · intro hvs
    have hg0 : goodKeys ⟨0, []⟩ := by intro s hs; simp at hs
    have hap := addParams_spec vs ⟨0, []⟩ hg0
    have hvs' : vs.isEmpty = false := by
      cases vs with
      | nil => exact absurd rfl hvs
      | cons v tl => rfl
    rw [List.range_eq_range']
    simp [buildWhere, processParts, processEntry, processOps, applyOp, hf', hvs', hap, joinSep]

/-- C8 witness: an empty list gives `1=0` with no bindings; the list
`["a", "b"]` gives two placeholders in order. -/
theorem c8_witness :
    buildWhere (some [WhereEntry.fieldE "status"
        (FieldCond.opMap [("in", JSArg.arr [])])]) ["status"] = .ok ("1=0", []) ∧
    buildWhere (some [WhereEntry.fieldE "status"
        (FieldCond.opMap [("in", JSArg.arr [Value.vStr "a", Value.vStr "b"])])]) ["status"] =
      .ok ("\"status\" IN (:p_0, :p_1)",
        [("p_0", JSArg.prim (Value.vStr "a")), ("p_1", JSArg.prim (Value.vStr "b"))]) := by
  have h := c8_in_operator "status" ["status"] [Value.vStr "a", Value.vStr "b"] (by decide)
  refine ⟨h.1, ?_⟩
  have h2 := h.2 (by decide)
  exact h2.trans (by decide)

/-- C9: `findUnique` and `findFirst` are extensionally equal — both are
`findMany` with the caller's arguments and the limit forced to 1, taking
the head of the rows (or null when empty), over every execution oracle,
field set, table and argument object. -/
theorem c9_findUnique_eq_findFirst {ρ : Type}
    (exec : String → List (String × JSArg) → Option String → List ρ)
    (fields : List String) (tableName : String) (a : FindArgs) :
    findUnique exec fields tableName a = findFirst exec fields tableName a ∧
    findUnique exec fields tableName a =
      (findMany exec fields tableName { a with limit := some 1 }).map List.head? :=
  ⟨rfl, rfl⟩

/-- C10: the select builder is total — it never raises, silently dropping
keys that are unknown or falsy — and it returns `*` exactly when no
valid truthy key remains (in particular for an absent or empty select);
otherwise it returns the comma-joined quoted surviving keys. -/
theorem c10_buildSelect_total (select : Option (List (String × Bool))) (fields : List String) :
    (buildSelect select fields = "*" ∨
      buildSelect select fields = joinSep ", "
        (((select.getD []).filter (fun kv => kv.2 && fields.contains kv.1)).map
          (fun kv => quote kv.1))) ∧
    (buildSelect select fields = "*" ↔
      (select.getD []).filter (fun kv => kv.2 && fields.contains kv.1) = []) := by
  cases select with
  | none => simp [buildSelect]
  | some sel =>
    by_cases hempty : sel.isEmpty
    · have hsel : sel = [] := by
        cases sel with
        | nil => rfl
        | cons x tl => simp [List.isEmpty] at hempty
      subst hsel
      simp [buildSelect]
    · cases hfl : sel.filter (fun kv => kv.2 && fields.contains kv.1) with
      | nil =>
        have hb : buildSelect (some sel) fields = "*" := by
          simp only [buildSelect]
          rw [if_neg hempty, hfl]
          simp
        constructor
        · exact Or.inl hb
        · rw [show (some sel).getD ([] : List (String × Bool)) = sel from rfl, hfl, hb]
          simp
      | cons x tl =>
        have hb : buildSelect (some sel) fields =
            joinSep ", " ((x :: tl).map (fun kv => quote kv.1)) := by
          simp only [buildSelect]
          rw [if_neg hempty, hfl]
          simp
        have hne : joinSep ", " ((x :: tl).map (fun kv => quote kv.1)) ≠ "*" := by
          rw [List.map_cons]
          apply joinSep_ne_star
          rw [quote_length]
          omega
        constructor
        · right
          rw [hb, show (some sel).getD ([] : List (String × Bool)) = sel from rfl, hfl]
        · rw [hb, show (some sel).getD ([] : List (String × Bool)) = sel from rfl, hfl]
          constructor
          · intro hcontra
            exact absurd hcontra hne
          · intro hcontra
            exact absurd hcontra (List.cons_ne_nil x tl)

end Rqlink
